import Mathlib

/-!
Verification of the btc_tax lot-matching system.

Shallow embedding of the repository's core modules:
  acquisition_lots.py    (AcquisitionLot, legacy-lot synthesis)
  sales_transactions.py  (SaleTransaction)
  cost_basis_matching.py (the FIFO / LIFO / HIFO matching engine,
                          compare_methods, calculate_remaining_lots)
  btc_tax.py             (optimal-method selection)

Conventions of the embedding:
  dates are integers (day numbers), quantities and monetary amounts are
  rationals, and Python's stable sorted(...) is modelled by insertionSort
  (a stable sort, hence extensionally the unique stable sort for the key).
-/

/-- Embeds the AcquisitionLot dataclass of acquisition_lots.py. -/
structure AcquisitionLot where
  date : ℤ
  btc_amount : ℚ
  cost_basis_usd : ℚ
  source : String
  price_per_btc : ℚ
deriving DecidableEq

/-- Embeds AcquisitionLot.__post_init__ (acquisition_lots.py lines 22-27):
the constructor recomputes price_per_btc from the totals. -/
def AcquisitionLot.make (date : ℤ) (btc_amount cost_basis_usd : ℚ)
    (source : String) : AcquisitionLot :=
  { date := date, btc_amount := btc_amount, cost_basis_usd := cost_basis_usd,
    source := source,
    price_per_btc := if 0 < btc_amount then cost_basis_usd / btc_amount else 0 }

/-- Embeds the SaleTransaction dataclass of sales_transactions.py. -/
structure SaleTransaction where
  date : ℤ
  btc_amount : ℚ
  sale_price_per_btc : ℚ
  sale_proceeds_usd : ℚ
  fee_usd : ℚ
  net_proceeds_usd : ℚ
  source : String
deriving DecidableEq

/-- Embeds SaleTransaction.__post_init__ (sales_transactions.py lines 25-27). -/
def SaleTransaction.make (date : ℤ) (btc_amount sale_price_per_btc : ℚ)
    (sale_proceeds_usd fee_usd : ℚ) (source : String) : SaleTransaction :=
  { date := date, btc_amount := btc_amount,
    sale_price_per_btc := sale_price_per_btc,
    sale_proceeds_usd := sale_proceeds_usd, fee_usd := fee_usd,
    net_proceeds_usd := sale_proceeds_usd - fee_usd, source := source }

/-- Embeds the MatchedLot dataclass of cost_basis_matching.py. -/
structure MatchedLot where
  sale_date : ℤ
  sale_amount : ℚ
  sale_price_per_btc : ℚ
  lot_date : ℤ
  lot_amount_used : ℚ
  lot_cost_basis_per_btc : ℚ
  cost_basis_used : ℚ
  gain_loss : ℚ
  holding_period_days : ℤ
  is_long_term : Bool
  sale_source : String
  lot_source : String
deriving DecidableEq

/-- Embeds the MatchingResults dataclass of cost_basis_matching.py. -/
structure MatchingResults where
  method : String
  matched_lots : List MatchedLot
  total_realized_gain : ℚ
  short_term_gain : ℚ
  long_term_gain : ℚ
  total_cost_basis : ℚ
  total_proceeds : ℚ
deriving DecidableEq

/-- Embeds calculate_holding_period (cost_basis_matching.py lines 43-56). -/
def calculate_holding_period (acquisition_date sale_date : ℤ) : ℤ × Bool :=
  (sale_date - acquisition_date, decide (365 < sale_date - acquisition_date))

/-- Embeds the inner for-loop over remaining_lots (cost_basis_matching.py
lines 87-125; the same text recurs at lines 173-211 and 259-297): walks the
remaining-lots list for one sale, threading the sale's unfilled remainder,
and returns the updated remaining-lots list, the emitted MatchedLot records
in order, and the final unfilled remainder. -/
def allocateSale (sale : SaleTransaction) (remaining_sale_amount : ℚ) :
    List (AcquisitionLot × ℚ) →
      List (AcquisitionLot × ℚ) × List MatchedLot × ℚ
  | [] => ([], [], remaining_sale_amount)
  | (lot, remaining_amount) :: rest =>
    if remaining_sale_amount ≤ 0 then
      ((lot, remaining_amount) :: rest, [], remaining_sale_amount)
    else if remaining_amount ≤ 0 then
      let r := allocateSale sale remaining_sale_amount rest
      ((lot, remaining_amount) :: r.1, r.2.1, r.2.2)
    else if sale.date < lot.date then
      let r := allocateSale sale remaining_sale_amount rest
      ((lot, remaining_amount) :: r.1, r.2.1, r.2.2)
    else
      let amount_to_use := min remaining_sale_amount remaining_amount
      let cost_basis_used := (amount_to_use / lot.btc_amount) * lot.cost_basis_usd
      let gain_loss := (sale.sale_price_per_btc - lot.price_per_btc) * amount_to_use
      let hp := calculate_holding_period lot.date sale.date
      let matched : MatchedLot :=
        { sale_date := sale.date, sale_amount := sale.btc_amount,
          sale_price_per_btc := sale.sale_price_per_btc, lot_date := lot.date,
          lot_amount_used := amount_to_use,
          lot_cost_basis_per_btc := lot.price_per_btc,
          cost_basis_used := cost_basis_used, gain_loss := gain_loss,
          holding_period_days := hp.1, is_long_term := hp.2,
          sale_source := sale.source, lot_source := lot.source }
      let r := allocateSale sale (remaining_sale_amount - amount_to_use) rest
      ((lot, remaining_amount - amount_to_use) :: r.1, matched :: r.2.1, r.2.2)

/-- Embeds one iteration of the outer for-loop over sales
(cost_basis_matching.py lines 83-125): the sale is allocated against the
current remaining-lots state and its matches are appended to the
accumulated matched_lots list. -/
def saleStep (st : List (AcquisitionLot × ℚ) × List MatchedLot)
    (sale : SaleTransaction) :
    List (AcquisitionLot × ℚ) × List MatchedLot :=
  let r := allocateSale sale sale.btc_amount st.1
  (r.1, st.2 ++ r.2.1)

/-- Embeds the outer for-loop over sales (cost_basis_matching.py lines
83-125), returning the final remaining-lots state and the matched lots. -/
def processSales (sales : List SaleTransaction)
    (remaining_lots : List (AcquisitionLot × ℚ)) :
    List (AcquisitionLot × ℚ) × List MatchedLot :=
  sales.foldl saleStep (remaining_lots, [])

/-- Embeds the totals computation (cost_basis_matching.py lines 127-142):
every aggregate field is a summation over the matched lots. -/
def totalsFrom (method : String) (matched_lots : List MatchedLot) :
    MatchingResults :=
  { method := method, matched_lots := matched_lots,
    total_realized_gain := (matched_lots.map MatchedLot.gain_loss).sum,
    short_term_gain :=
      ((matched_lots.filter (fun m => !m.is_long_term)).map MatchedLot.gain_loss).sum,
    long_term_gain :=
      ((matched_lots.filter (fun m => m.is_long_term)).map MatchedLot.gain_loss).sum,
    total_cost_basis := (matched_lots.map MatchedLot.cost_basis_used).sum,
    total_proceeds :=
      (matched_lots.map (fun m => m.sale_price_per_btc * m.lot_amount_used)).sum }

/-- Embeds lines 78-142 of cost_basis_matching.py given the already-sorted
lot list: seeds each lot's remaining-quantity counter at its full quantity,
runs the sale loop, and computes the aggregate totals. -/
def buildResults (method : String) (sorted_lots : List AcquisitionLot)
    (sales : List SaleTransaction) : MatchingResults :=
  let remaining_lots := sorted_lots.map (fun lot => (lot, lot.btc_amount))
  totalsFrom method (processSales sales remaining_lots).2

/-- Embeds the FIFO sort (cost_basis_matching.py line 75): stable ascending
sort by acquisition date. -/
def fifoSorted (acquisition_lots : List AcquisitionLot) : List AcquisitionLot :=
  acquisition_lots.insertionSort (fun a b => a.date ≤ b.date)

/-- Embeds the LIFO sort (cost_basis_matching.py line 161): Python's stable
sorted with reverse=True, i.e. descending by date with ties in original order. -/
def lifoSorted (acquisition_lots : List AcquisitionLot) : List AcquisitionLot :=
  acquisition_lots.insertionSort (fun a b => b.date ≤ a.date)

/-- Embeds the HIFO sort (cost_basis_matching.py line 247): stable descending
sort by cost basis per BTC. -/
def hifoSorted (acquisition_lots : List AcquisitionLot) : List AcquisitionLot :=
  acquisition_lots.insertionSort (fun a b => b.price_per_btc ≤ a.price_per_btc)

/-- Embeds match_sales_to_lots_fifo (cost_basis_matching.py lines 59-142). -/
def match_sales_to_lots_fifo (acquisition_lots : List AcquisitionLot)
    (sales : List SaleTransaction) : MatchingResults :=
  buildResults "FIFO" (fifoSorted acquisition_lots) sales

/-- Embeds match_sales_to_lots_lifo (cost_basis_matching.py lines 145-228). -/
def match_sales_to_lots_lifo (acquisition_lots : List AcquisitionLot)
    (sales : List SaleTransaction) : MatchingResults :=
  buildResults "LIFO" (lifoSorted acquisition_lots) sales

/-- Embeds match_sales_to_lots_hifo (cost_basis_matching.py lines 231-314). -/
def match_sales_to_lots_hifo (acquisition_lots : List AcquisitionLot)
    (sales : List SaleTransaction) : MatchingResults :=
  buildResults "HIFO" (hifoSorted acquisition_lots) sales

example :
    (match_sales_to_lots_fifo
      [AcquisitionLot.make 0 1 10000 "BUY"]
      [SaleTransaction.make 366 (2/5) 20000 8000 0 "RIVER_SELL"]).matched_lots =
    [{ sale_date := 366, sale_amount := 2/5, sale_price_per_btc := 20000,
       lot_date := 0, lot_amount_used := 2/5, lot_cost_basis_per_btc := 10000,
       cost_basis_used := 4000, gain_loss := 4000, holding_period_days := 366,
       is_long_term := true, sale_source := "RIVER_SELL", lot_source := "BUY" }] := by
  norm_num [match_sales_to_lots_fifo, buildResults, fifoSorted, processSales,
    saleStep, totalsFrom, allocateSale, calculate_holding_period,
    AcquisitionLot.make, SaleTransaction.make, List.insertionSort,
    List.orderedInsert]

/-! Structural lemmas about the inner allocation walk. -/

/-- The unfilled remainder never increases during one sale's walk. -/
theorem allocateSale_rem_le (sale : SaleTransaction) (q : ℚ)
    (rl : List (AcquisitionLot × ℚ)) :
    (allocateSale sale q rl).2.2 ≤ q := by
  induction rl generalizing q with
  | nil => simp [allocateSale]
  | cons p rest ih =>
    obtain ⟨lot, ra⟩ := p
    simp only [allocateSale]
    split_ifs with h1 h2 h3
    · simp
    · simpa using ih q
    · simpa using ih q
    · have hq : 0 < q := lt_of_not_le h1
      have hra : 0 < ra := lt_of_not_le h2
      have hmin : 0 < min q ra := lt_min hq hra
      have := ih (q - min q ra)
      simp only []
      linarith

/-- The unfilled remainder stays nonnegative when it starts nonnegative. -/
theorem allocateSale_rem_nonneg (sale : SaleTransaction) (q : ℚ)
    (rl : List (AcquisitionLot × ℚ)) (hq : 0 ≤ q) :
    0 ≤ (allocateSale sale q rl).2.2 := by
  induction rl generalizing q with
  | nil => simpa [allocateSale] using hq
  | cons p rest ih =>
    obtain ⟨lot, ra⟩ := p
    simp only [allocateSale]
    split_ifs with h1 h2 h3
    · simpa using hq
    · simpa using ih q hq
    · simpa using ih q hq
    · have : min q ra ≤ q := min_le_left q ra
      simpa using ih (q - min q ra) (by linarith)

/-- The allocated quantities of one sale's matches sum to the drop of the
sale's unfilled remainder. -/
theorem allocateSale_amounts_sum (sale : SaleTransaction) (q : ℚ)
    (rl : List (AcquisitionLot × ℚ)) :
    (((allocateSale sale q rl).2.1).map MatchedLot.lot_amount_used).sum =
      q - (allocateSale sale q rl).2.2 := by
  induction rl generalizing q with
  | nil => simp [allocateSale]
  | cons p rest ih =>
    obtain ⟨lot, ra⟩ := p
    simp only [allocateSale]
    split_ifs with h1 h2 h3
    · simp
    · simpa using ih q
    · simpa using ih q
    · have := ih (q - min q ra)
      simp only [List.map_cons, List.sum_cons]
      simp only [] at this ⊢
      linarith

/-- The remaining-lot quantities drop by exactly the total allocated. -/
theorem allocateSale_state_sum (sale : SaleTransaction) (q : ℚ)
    (rl : List (AcquisitionLot × ℚ)) :
    (((allocateSale sale q rl).1).map Prod.snd).sum =
      (rl.map Prod.snd).sum - (q - (allocateSale sale q rl).2.2) := by
  induction rl generalizing q with
  | nil => simp [allocateSale]
  | cons p rest ih =>
    obtain ⟨lot, ra⟩ := p
    simp only [allocateSale]
    split_ifs with h1 h2 h3
    · simp
    · have := ih q
      simp only [List.map_cons, List.sum_cons] at this ⊢
      linarith
    · have := ih q
      simp only [List.map_cons, List.sum_cons] at this ⊢
      linarith
    · have := ih (q - min q ra)
      simp only [List.map_cons, List.sum_cons] at this ⊢
      linarith

/-- Every match emitted for a sale carries that sale's date and amount, an
acquisition date not after the sale date, and a positive allocated amount. -/
theorem allocateSale_matches (sale : SaleTransaction) (q : ℚ)
    (rl : List (AcquisitionLot × ℚ)) :
    ∀ m ∈ (allocateSale sale q rl).2.1,
      m.sale_date = sale.date ∧ m.sale_amount = sale.btc_amount ∧
        m.lot_date ≤ m.sale_date ∧ 0 < m.lot_amount_used := by
  induction rl generalizing q with
  | nil => simp [allocateSale]
  | cons p rest ih =>
    obtain ⟨lot, ra⟩ := p
    simp only [allocateSale]
    split_ifs with h1 h2 h3
    · simp
    · simpa using ih q
    · simpa using ih q
    · intro m hm
      have hq : 0 < q := lt_of_not_le h1
      have hra : 0 < ra := lt_of_not_le h2
      simp only [List.mem_cons] at hm
      rcases hm with hm | hm
      · subst hm
        refine ⟨rfl, rfl, ?_, lt_min hq hra⟩
        exact le_of_not_lt h3
      · exact ih (q - min q ra) m hm

/-- Pointwise evolution of the remaining-lots list during one sale's walk:
lots are untouched and counters only decrease, staying nonnegative. -/
theorem allocateSale_forall₂ (sale : SaleTransaction) (q : ℚ)
    (rl : List (AcquisitionLot × ℚ)) :
    List.Forall₂
      (fun p p' => p'.1 = p.1 ∧ p'.2 ≤ p.2 ∧ (0 ≤ p.2 → 0 ≤ p'.2))
      rl (allocateSale sale q rl).1 := by
  induction rl generalizing q with
  | nil => simp [allocateSale]
  | cons p rest ih =>
    obtain ⟨lot, ra⟩ := p
    simp only [allocateSale]
    split_ifs with h1 h2 h3
    · exact List.forall₂_same.mpr (fun p _ => ⟨rfl, le_refl _, fun h => h⟩)
    · exact List.Forall₂.cons ⟨rfl, le_refl _, fun h => h⟩ (ih q)
    · exact List.Forall₂.cons ⟨rfl, le_refl _, fun h => h⟩ (ih q)
    · have hq : 0 < q := lt_of_not_le h1
      have hra : 0 < ra := lt_of_not_le h2
      refine List.Forall₂.cons ⟨rfl, ?_, fun _ => ?_⟩ (ih (q - min q ra))
      · show ra - min q ra ≤ ra
        have : 0 < min q ra := lt_min hq hra
        linarith
      · show (0 : ℚ) ≤ ra - min q ra
        have : min q ra ≤ ra := min_le_right q ra
        linarith

/-- When a sale ends with a positive unfilled remainder, no lot in the
post-walk state is still eligible for it: every counter is exhausted or the
lot is future-dated relative to the sale. -/
theorem allocateSale_exhaust (sale : SaleTransaction) (q : ℚ)
    (rl : List (AcquisitionLot × ℚ)) (hpos : 0 < (allocateSale sale q rl).2.2) :
    ∀ p ∈ (allocateSale sale q rl).1, p.2 ≤ 0 ∨ sale.date < p.1.date := by
  induction rl generalizing q with
  | nil => simp [allocateSale]
  | cons p rest ih =>
    obtain ⟨lot, ra⟩ := p
    simp only [allocateSale] at hpos ⊢
    split_ifs at hpos ⊢ with h1 h2 h3
    · intro p hp
      exact absurd hpos (not_lt.mpr h1)
    · intro p hp
      simp only [List.mem_cons] at hp
      rcases hp with hp | hp
      · subst hp; exact Or.inl h2
      · exact ih q (by simpa using hpos) p hp
    · intro p hp
      simp only [List.mem_cons] at hp
      rcases hp with hp | hp
      · subst hp; exact Or.inr h3
      · exact ih q (by simpa using hpos) p hp
    · intro p hp
      simp only [List.mem_cons] at hp
      have hpos' : 0 < (allocateSale sale (q - min q ra) rest).2.2 := by
        simpa using hpos
      have hle : (allocateSale sale (q - min q ra) rest).2.2 ≤ q - min q ra :=
        allocateSale_rem_le sale (q - min q ra) rest
      have hmin_lt : min q ra < q := by linarith
      have hmin_eq : min q ra = ra := by
        rcases min_cases q ra with ⟨h, _⟩ | ⟨h, _⟩
        · exfalso; rw [h] at hmin_lt; exact lt_irrefl q hmin_lt
        · exact h
      rcases hp with hp | hp
      · subst hp
        exact Or.inl (by rw [hmin_eq]; simp)
      · exact ih (q - min q ra) hpos' p hp

/-! Lemmas lifting the per-sale facts through the outer sale loop. -/

/-- Accumulator form of the sale fold. -/
theorem foldl_saleStep_acc (sales : List SaleTransaction)
    (rl : List (AcquisitionLot × ℚ)) (acc : List MatchedLot) :
    sales.foldl saleStep (rl, acc) =
      ((processSales sales rl).1, acc ++ (processSales sales rl).2) := by
  induction sales generalizing rl acc with
  | nil => simp [processSales]
  | cons s ss ih =>
    simp only [processSales, List.foldl_cons, saleStep]
    rw [ih, ih]
    simp

/-- Unfolding of processSales on a cons. -/
theorem processSales_cons (s : SaleTransaction) (ss : List SaleTransaction)
    (rl : List (AcquisitionLot × ℚ)) :
    processSales (s :: ss) rl =
      ((processSales ss (allocateSale s s.btc_amount rl).1).1,
        (allocateSale s s.btc_amount rl).2.1 ++
          (processSales ss (allocateSale s s.btc_amount rl).1).2) := by
  have h := foldl_saleStep_acc ss (allocateSale s s.btc_amount rl).1
    (allocateSale s s.btc_amount rl).2.1
  calc processSales (s :: ss) rl
      = ss.foldl saleStep ((allocateSale s s.btc_amount rl).1,
          (allocateSale s s.btc_amount rl).2.1) := by
        simp [processSales, saleStep]
    _ = _ := h

/-- Per-sale trace of the outer loop: for each sale in order, the matches
emitted for it, its final unfilled remainder, and the remaining-lots state
after it. -/
def saleSteps : List (AcquisitionLot × ℚ) → List SaleTransaction →
    List (List MatchedLot × ℚ × List (AcquisitionLot × ℚ))
  | _, [] => []
  | rl, s :: ss =>
    let r := allocateSale s s.btc_amount rl
    (r.2.1, r.2.2, r.1) :: saleSteps r.1 ss

/-- All remaining-lots states seen by a run, the initial one included. -/
def runStates (rl : List (AcquisitionLot × ℚ))
    (sales : List SaleTransaction) : List (List (AcquisitionLot × ℚ)) :=
  rl :: (saleSteps rl sales).map (fun st => st.2.2)

/-- The matched lots of a run are the concatenation of its per-sale groups. -/
theorem processSales_eq_flatten (sales : List SaleTransaction)
    (rl : List (AcquisitionLot × ℚ)) :
    (processSales sales rl).2 =
      ((saleSteps rl sales).map (fun st => st.1)).flatten := by
  induction sales generalizing rl with
  | nil => simp [processSales, saleSteps]
  | cons s ss ih => rw [processSales_cons]; simp [saleSteps, ih]

/-- Counter invariant of the run: every remaining-quantity counter is
nonnegative and bounded by its lot's full quantity. -/
def CounterInv (st : List (AcquisitionLot × ℚ)) : Prop :=
  ∀ p ∈ st, 0 ≤ p.2 ∧ p.2 ≤ p.1.btc_amount

theorem forall₂_counterInv {rl rl' : List (AcquisitionLot × ℚ)}
    (h : List.Forall₂
      (fun p p' => p'.1 = p.1 ∧ p'.2 ≤ p.2 ∧ (0 ≤ p.2 → 0 ≤ p'.2)) rl rl')
    (hinv : CounterInv rl) : CounterInv rl' := by
  induction h with
  | nil => intro p hp; simp at hp
  | @cons a b l₁ l₂ hab htail ih =>
    intro p hp
    rcases List.mem_cons.mp hp with hp | hp
    · subst hp
      obtain ⟨h0, h1⟩ := hinv a (List.mem_cons_self a l₁)
      exact ⟨hab.2.2 h0, by rw [hab.1]; linarith [hab.2.1]⟩
    · exact ih (fun t ht => hinv t (List.mem_cons_of_mem a ht)) p hp

theorem allocateSale_counterInv (sale : SaleTransaction) (q : ℚ)
    (rl : List (AcquisitionLot × ℚ)) (h : CounterInv rl) :
    CounterInv (allocateSale sale q rl).1 :=
  forall₂_counterInv (allocateSale_forall₂ sale q rl) h

theorem processSales_counterInv (sales : List SaleTransaction)
    (rl : List (AcquisitionLot × ℚ)) (h : CounterInv rl) :
    CounterInv (processSales sales rl).1 := by
  induction sales generalizing rl with
  | nil => simpa [processSales] using h
  | cons s ss ih =>
    rw [processSales_cons]
    exact ih _ (allocateSale_counterInv _ _ _ h)

theorem runStates_cons (rl : List (AcquisitionLot × ℚ))
    (s : SaleTransaction) (ss : List SaleTransaction) :
    runStates rl (s :: ss) =
      rl :: runStates (allocateSale s s.btc_amount rl).1 ss := by
  simp [runStates, saleSteps]

theorem runStates_counterInv (sales : List SaleTransaction)
    (rl : List (AcquisitionLot × ℚ)) (h : CounterInv rl) :
    ∀ st ∈ runStates rl sales, CounterInv st := by
  induction sales generalizing rl with
  | nil =>
    intro st hst
    simp [runStates, saleSteps] at hst
    subst hst
    exact h
  | cons s ss ih =>
    intro st hst
    rw [runStates_cons] at hst
    rcases List.mem_cons.mp hst with h1 | h1
    · subst h1; exact h
    · exact ih _ (allocateSale_counterInv _ _ _ h) st h1

/-- Global conservation: the total allocated quantity equals the total drop
of the remaining-quantity counters. -/
theorem processSales_sum (sales : List SaleTransaction)
    (rl : List (AcquisitionLot × ℚ)) :
    (((processSales sales rl).2).map MatchedLot.lot_amount_used).sum =
      (rl.map Prod.snd).sum - (((processSales sales rl).1).map Prod.snd).sum := by
  induction sales generalizing rl with
  | nil => simp [processSales]
  | cons s ss ih =>
    rw [processSales_cons]
    simp only [List.map_append, List.sum_append]
    rw [ih]
    have h1 := allocateSale_amounts_sum s s.btc_amount rl
    have h2 := allocateSale_state_sum s s.btc_amount rl
    linarith

/-- Date ordering holds for every match produced by the sale loop. -/
theorem processSales_dates (sales : List SaleTransaction)
    (rl : List (AcquisitionLot × ℚ)) :
    ∀ m ∈ (processSales sales rl).2, m.lot_date ≤ m.sale_date := by
  induction sales generalizing rl with
  | nil => simp [processSales]
  | cons s ss ih =>
    rw [processSales_cons]
    intro m hm
    rcases List.mem_append.mp hm with hm | hm
    · exact (allocateSale_matches s s.btc_amount rl m hm).2.2.1
    · exact ih _ m hm

/-- Per-disposal conservation along the trace: each sale's matches sum to at
most its quantity, with equality unless the post-sale state has no eligible
lot left. -/
theorem saleSteps_conservation (sales : List SaleTransaction)
    (rl : List (AcquisitionLot × ℚ))
    (hs : ∀ s ∈ sales, 0 ≤ s.btc_amount) :
    ∀ (i : ℕ) (step : List MatchedLot × ℚ × List (AcquisitionLot × ℚ))
      (s_i : SaleTransaction), (saleSteps rl sales)[i]? = some step →
      sales[i]? = some s_i →
      (step.1.map MatchedLot.lot_amount_used).sum ≤ s_i.btc_amount ∧
        ((step.1.map MatchedLot.lot_amount_used).sum = s_i.btc_amount ∨
          ∀ p ∈ step.2.2, p.2 ≤ 0 ∨ s_i.date < p.1.date) := by
  induction sales generalizing rl with
  | nil => intro i step s_i h1 h2; simp at h2
  | cons s ss ih =>
    intro i step s_i h1 h2
    cases i with
    | zero =>
      simp only [saleSteps, List.getElem?_cons_zero, Option.some.injEq] at h1 h2
      subst h2
      subst h1
      have hq : 0 ≤ s.btc_amount := hs s (List.mem_cons_self s ss)
      have hsum := allocateSale_amounts_sum s s.btc_amount rl
      have hnn := allocateSale_rem_nonneg s s.btc_amount rl hq
      constructor
      · simp only []
        linarith
      · rcases eq_or_lt_of_le hnn with hz | hz
        · left
          simp only []
          linarith
        · right
          exact allocateSale_exhaust s s.btc_amount rl hz
    | succ i =>
      simp only [saleSteps, List.getElem?_cons_succ] at h1 h2
      exact ih _ (fun t ht => hs t (List.mem_cons_of_mem s ht)) i step s_i h1 h2

/-! Claim theorems. -/

/-- Claim C1: for every list of acquisition lots, every list of sales, and
every policy (FIFO, LIFO, HIFO), no Match record emitted by the matching
engine has a lot acquisition date strictly after the sale date; the
future-dated-lot guard is independent of the policy's sort key. -/
theorem claim_c1_date_ordering (acquisition_lots : List AcquisitionLot)
    (sales : List SaleTransaction) :
    (∀ m ∈ (match_sales_to_lots_fifo acquisition_lots sales).matched_lots,
        m.lot_date ≤ m.sale_date) ∧
    (∀ m ∈ (match_sales_to_lots_lifo acquisition_lots sales).matched_lots,
        m.lot_date ≤ m.sale_date) ∧
    (∀ m ∈ (match_sales_to_lots_hifo acquisition_lots sales).matched_lots,
        m.lot_date ≤ m.sale_date) := by
  refine ⟨?_, ?_, ?_⟩ <;>
  · simp only [match_sales_to_lots_fifo, match_sales_to_lots_lifo,
      match_sales_to_lots_hifo, buildResults, totalsFrom]
    exact fun m hm => processSales_dates _ _ m hm

/-- Witness for claim C1 at a concrete one-lot, one-sale input. -/
theorem claim_c1_date_ordering_witness :
    ({ sale_date := 10, sale_amount := 1/2, sale_price_per_btc := 20000,
       lot_date := 0, lot_amount_used := 1/2, lot_cost_basis_per_btc := 10000,
       cost_basis_used := 5000, gain_loss := 5000, holding_period_days := 10,
       is_long_term := false, sale_source := "RIVER_SELL",
       lot_source := "BUY" } : MatchedLot).lot_date ≤
    ({ sale_date := 10, sale_amount := 1/2, sale_price_per_btc := 20000,
       lot_date := 0, lot_amount_used := 1/2, lot_cost_basis_per_btc := 10000,
       cost_basis_used := 5000, gain_loss := 5000, holding_period_days := 10,
       is_long_term := false, sale_source := "RIVER_SELL",
       lot_source := "BUY" } : MatchedLot).sale_date := by
  have hev :
      (match_sales_to_lots_fifo [AcquisitionLot.make 0 1 10000 "BUY"]
        [SaleTransaction.make 10 (1/2) 20000 10000 0 "RIVER_SELL"]).matched_lots =
      [{ sale_date := 10, sale_amount := 1/2, sale_price_per_btc := 20000,
         lot_date := 0, lot_amount_used := 1/2, lot_cost_basis_per_btc := 10000,
         cost_basis_used := 5000, gain_loss := 5000, holding_period_days := 10,
         is_long_term := false, sale_source := "RIVER_SELL",
         lot_source := "BUY" }] := by
    norm_num [match_sales_to_lots_fifo, buildResults, fifoSorted, processSales,
      saleStep, totalsFrom, allocateSale, calculate_holding_period,
      AcquisitionLot.make, SaleTransaction.make, List.insertionSort,
      List.orderedInsert]
  exact (claim_c1_date_ordering [AcquisitionLot.make 0 1 10000 "BUY"]
    [SaleTransaction.make 10 (1/2) 20000 10000 0 "RIVER_SELL"]).1 _
    (by rw [hev]; exact List.mem_singleton.mpr rfl)

/-- Aggregate-consistency property of claim C2 for one MatchingResults
value: every stored total equals the corresponding summation over matches. -/
def AggregatesConsistent (r : MatchingResults) : Prop :=
  r.total_realized_gain = (r.matched_lots.map MatchedLot.gain_loss).sum ∧
  r.short_term_gain =
    ((r.matched_lots.filter (fun m => !m.is_long_term)).map
      MatchedLot.gain_loss).sum ∧
  r.long_term_gain =
    ((r.matched_lots.filter (fun m => m.is_long_term)).map
      MatchedLot.gain_loss).sum ∧
  r.total_cost_basis = (r.matched_lots.map MatchedLot.cost_basis_used).sum ∧
  r.total_proceeds =
    (r.matched_lots.map (fun m => m.sale_price_per_btc * m.lot_amount_used)).sum

/-- Claim C2: for every input and every policy, the aggregate totals of the
returned MatchingResults are exactly the summations over its matched lots. -/
theorem claim_c2_aggregate_consistency (acquisition_lots : List AcquisitionLot)
    (sales : List SaleTransaction) :
    AggregatesConsistent (match_sales_to_lots_fifo acquisition_lots sales) ∧
    AggregatesConsistent (match_sales_to_lots_lifo acquisition_lots sales) ∧
    AggregatesConsistent (match_sales_to_lots_hifo acquisition_lots sales) := by
  refine ⟨?_, ?_, ?_⟩ <;> exact ⟨rfl, rfl, rfl, rfl, rfl⟩

/-- Claim C5: the holding period is the integer day difference between the
acquisition and sale dates, a match is long-term iff that difference is
strictly greater than 365, and on the boundary 365 days is short-term while
366 days is long-term. -/
theorem claim_c5_holding_period (a s : ℤ) :
    (calculate_holding_period a s).1 = s - a ∧
    ((calculate_holding_period a s).2 = true ↔ 365 < s - a) ∧
    (calculate_holding_period a (a + 365)).2 = false ∧
    (calculate_holding_period a (a + 366)).2 = true := by
  refine ⟨rfl, ?_, ?_, ?_⟩
  · simp [calculate_holding_period]
  · simp only [calculate_holding_period, decide_eq_false_iff_not, not_lt]
    omega
  · simp only [calculate_holding_period, decide_eq_true_eq]
    omega

/-- Conclusion of claim C3 for one policy run: the run's matched lots are
the concatenation of its per-sale groups, and each sale's group sums to at
most the sale's quantity, with equality unless the post-sale state has no
lot still eligible for the sale. -/
def ConservationHolds (r : MatchingResults) (sorted_lots : List AcquisitionLot)
    (sales : List SaleTransaction) : Prop :=
  let rl := sorted_lots.map (fun lot => (lot, lot.btc_amount))
  r.matched_lots = ((saleSteps rl sales).map (fun st => st.1)).flatten ∧
  ∀ (i : ℕ) (step : List MatchedLot × ℚ × List (AcquisitionLot × ℚ))
    (s_i : SaleTransaction), (saleSteps rl sales)[i]? = some step →
    sales[i]? = some s_i →
    (step.1.map MatchedLot.lot_amount_used).sum ≤ s_i.btc_amount ∧
      ((step.1.map MatchedLot.lot_amount_used).sum = s_i.btc_amount ∨
        ∀ p ∈ step.2.2, p.2 ≤ 0 ∨ s_i.date < p.1.date)

/-- Claim C3: for every policy run and every disposal, the quantities
allocated for that disposal sum to at most the disposal's quantity, with
equality unless the eligible lots were exhausted before the disposal was
filled (the unmatched remainder being dropped with no emitted record). -/
theorem claim_c3_conservation (acquisition_lots : List AcquisitionLot)
    (sales : List SaleTransaction)
    (hs : ∀ s ∈ sales, 0 ≤ s.btc_amount) :
    ConservationHolds (match_sales_to_lots_fifo acquisition_lots sales)
      (fifoSorted acquisition_lots) sales ∧
    ConservationHolds (match_sales_to_lots_lifo acquisition_lots sales)
      (lifoSorted acquisition_lots) sales ∧
    ConservationHolds (match_sales_to_lots_hifo acquisition_lots sales)
      (hifoSorted acquisition_lots) sales := by
  refine ⟨⟨?_, ?_⟩, ⟨?_, ?_⟩, ⟨?_, ?_⟩⟩
  · simp only [match_sales_to_lots_fifo, buildResults, totalsFrom]
    exact processSales_eq_flatten sales _
  · exact saleSteps_conservation sales _ hs
  · simp only [match_sales_to_lots_lifo, buildResults, totalsFrom]
    exact processSales_eq_flatten sales _
  · exact saleSteps_conservation sales _ hs
  · simp only [match_sales_to_lots_hifo, buildResults, totalsFrom]
    exact processSales_eq_flatten sales _
  · exact saleSteps_conservation sales _ hs

/-- Witness for claim C3 at a concrete one-lot, one-sale input. -/
theorem claim_c3_conservation_witness :
    ConservationHolds
      (match_sales_to_lots_fifo [AcquisitionLot.make 0 1 10000 "BUY"]
        [SaleTransaction.make 10 (1/2) 20000 10000 0 "RIVER_SELL"])
      (fifoSorted [AcquisitionLot.make 0 1 10000 "BUY"])
      [SaleTransaction.make 10 (1/2) 20000 10000 0 "RIVER_SELL"] :=
  (claim_c3_conservation [AcquisitionLot.make 0 1 10000 "BUY"]
    [SaleTransaction.make 10 (1/2) 20000 10000 0 "RIVER_SELL"]
    (by intro s hsmem; simp only [List.mem_singleton] at hsmem; subst hsmem;
        norm_num [SaleTransaction.make])).1

/-- Conclusion of claim C4 for one policy run: every remaining-quantity
counter stays within zero and its lot's full quantity at every state of the
run, and the total allocated quantity is the drop of the counters, hence at
most the total lot quantity. -/
def LotConsumptionBounded (r : MatchingResults)
    (sorted_lots original_lots : List AcquisitionLot)
    (sales : List SaleTransaction) : Prop :=
  let rl := sorted_lots.map (fun lot => (lot, lot.btc_amount))
  (∀ st ∈ runStates rl sales, CounterInv st) ∧
  CounterInv (processSales sales rl).1 ∧
  (r.matched_lots.map MatchedLot.lot_amount_used).sum =
    (original_lots.map AcquisitionLot.btc_amount).sum -
      (((processSales sales rl).1).map Prod.snd).sum ∧
  (r.matched_lots.map MatchedLot.lot_amount_used).sum ≤
    (original_lots.map AcquisitionLot.btc_amount).sum

/-- Auxiliary form of claim C4 for one policy run over the sorted lot list. -/
theorem lotConsumption_aux (method : String)
    (sorted_lots : List AcquisitionLot) (sales : List SaleTransaction)
    (h : ∀ lot ∈ sorted_lots, 0 ≤ lot.btc_amount) :
    LotConsumptionBounded (buildResults method sorted_lots sales)
      sorted_lots sorted_lots sales := by
  have hinv : CounterInv (sorted_lots.map (fun lot => (lot, lot.btc_amount))) := by
    intro p hp
    simp only [List.mem_map] at hp
    obtain ⟨lot, hlot, rfl⟩ := hp
    exact ⟨h lot hlot, le_refl _⟩
  have hsum :
      ((sorted_lots.map (fun lot => (lot, lot.btc_amount))).map Prod.snd).sum =
        (sorted_lots.map AcquisitionLot.btc_amount).sum := by
    rw [List.map_map]
    rfl
  refine ⟨runStates_counterInv sales _ hinv,
    processSales_counterInv sales _ hinv, ?_, ?_⟩
  · have := processSales_sum sales
      (sorted_lots.map (fun lot => (lot, lot.btc_amount)))
    simp only [buildResults, totalsFrom]
    rw [this, hsum]
  · have heq := processSales_sum sales
      (sorted_lots.map (fun lot => (lot, lot.btc_amount)))
    have hfin := processSales_counterInv sales _ hinv
    have hnn : 0 ≤
        (((processSales sales
          (sorted_lots.map (fun lot => (lot, lot.btc_amount)))).1).map
            Prod.snd).sum := by
      apply List.sum_nonneg
      intro x hx
      simp only [List.mem_map] at hx
      obtain ⟨p, hp, rfl⟩ := hx
      exact (hfin p hp).1
    simp only [buildResults, totalsFrom]
    rw [heq, hsum]
    linarith

/-- Sum of lot quantities is invariant under each policy's sort. -/
theorem sortedSum_eq (f : List AcquisitionLot → List AcquisitionLot)
    (hperm : ∀ l, List.Perm (f l) l)
    (acquisition_lots : List AcquisitionLot) :
    ((f acquisition_lots).map AcquisitionLot.btc_amount).sum =
      (acquisition_lots.map AcquisitionLot.btc_amount).sum :=
  ((hperm acquisition_lots).map AcquisitionLot.btc_amount).sum_eq

/-- Claim C4: for every policy run, each lot's remaining-quantity counter,
seeded at the lot's full quantity, never goes negative across the whole run,
and the total allocated quantity never exceeds the total lot quantity. -/
theorem claim_c4_lot_consumption (acquisition_lots : List AcquisitionLot)
    (sales : List SaleTransaction)
    (h : ∀ lot ∈ acquisition_lots, 0 ≤ lot.btc_amount) :
    LotConsumptionBounded (match_sales_to_lots_fifo acquisition_lots sales)
      (fifoSorted acquisition_lots) acquisition_lots sales ∧
    LotConsumptionBounded (match_sales_to_lots_lifo acquisition_lots sales)
      (lifoSorted acquisition_lots) acquisition_lots sales ∧
    LotConsumptionBounded (match_sales_to_lots_hifo acquisition_lots sales)
      (hifoSorted acquisition_lots) acquisition_lots sales := by
  have hsf : ∀ lot ∈ fifoSorted acquisition_lots, 0 ≤ lot.btc_amount :=
    fun lot hlot =>
      h lot ((List.perm_insertionSort _ acquisition_lots).subset hlot)
  have hsl : ∀ lot ∈ lifoSorted acquisition_lots, 0 ≤ lot.btc_amount :=
    fun lot hlot =>
      h lot ((List.perm_insertionSort _ acquisition_lots).subset hlot)
  have hsh : ∀ lot ∈ hifoSorted acquisition_lots, 0 ≤ lot.btc_amount :=
    fun lot hlot =>
      h lot ((List.perm_insertionSort _ acquisition_lots).subset hlot)
  have ef := sortedSum_eq fifoSorted
    (fun l => List.perm_insertionSort _ l) acquisition_lots
  have el := sortedSum_eq lifoSorted
    (fun l => List.perm_insertionSort _ l) acquisition_lots
  have eh := sortedSum_eq hifoSorted
    (fun l => List.perm_insertionSort _ l) acquisition_lots
  refine ⟨?_, ?_, ?_⟩
  · have := lotConsumption_aux "FIFO" (fifoSorted acquisition_lots) sales hsf
    simp only [LotConsumptionBounded] at this ⊢
    rw [ef] at this
    exact this
  · have := lotConsumption_aux "LIFO" (lifoSorted acquisition_lots) sales hsl
    simp only [LotConsumptionBounded] at this ⊢
    rw [el] at this
    exact this
  · have := lotConsumption_aux "HIFO" (hifoSorted acquisition_lots) sales hsh
    simp only [LotConsumptionBounded] at this ⊢
    rw [eh] at this
    exact this

/-- Witness for claim C4 at a concrete one-lot, one-sale input. -/
theorem claim_c4_lot_consumption_witness :
    LotConsumptionBounded
      (match_sales_to_lots_hifo [AcquisitionLot.make 0 1 10000 "BUY"]
        [SaleTransaction.make 10 (1/2) 20000 10000 0 "RIVER_SELL"])
      (hifoSorted [AcquisitionLot.make 0 1 10000 "BUY"])
      [AcquisitionLot.make 0 1 10000 "BUY"]
      [SaleTransaction.make 10 (1/2) 20000 10000 0 "RIVER_SELL"] :=
  (claim_c4_lot_consumption [AcquisitionLot.make 0 1 10000 "BUY"]
    [SaleTransaction.make 10 (1/2) 20000 10000 0 "RIVER_SELL"]
    (by intro lot hlot; simp only [List.mem_singleton] at hlot; subst hlot;
        norm_num [AcquisitionLot.make])).2.2

/-! Division safety (claim C10). -/

/-- Division-guarded variant of allocateSale for claim C10: identical walk,
except that the division in cost_basis_used is preceded by an explicit
zero-divisor check, returning none exactly where Python would raise
ZeroDivisionError at cost_basis_matching.py line 100. -/
def allocateSaleChecked (sale : SaleTransaction) (remaining_sale_amount : ℚ) :
    List (AcquisitionLot × ℚ) →
      Option (List (AcquisitionLot × ℚ) × List MatchedLot × ℚ)
  | [] => some ([], [], remaining_sale_amount)
  | (lot, remaining_amount) :: rest =>
    if remaining_sale_amount ≤ 0 then
      some ((lot, remaining_amount) :: rest, [], remaining_sale_amount)
    else if remaining_amount ≤ 0 then
      match allocateSaleChecked sale remaining_sale_amount rest with
      | none => none
      | some r => some ((lot, remaining_amount) :: r.1, r.2.1, r.2.2)
    else if sale.date < lot.date then
      match allocateSaleChecked sale remaining_sale_amount rest with
      | none => none
      | some r => some ((lot, remaining_amount) :: r.1, r.2.1, r.2.2)
    else if lot.btc_amount = 0 then none
    else
      let amount_to_use := min remaining_sale_amount remaining_amount
      let cost_basis_used := (amount_to_use / lot.btc_amount) * lot.cost_basis_usd
      let gain_loss := (sale.sale_price_per_btc - lot.price_per_btc) * amount_to_use
      let hp := calculate_holding_period lot.date sale.date
      let matched : MatchedLot :=
        { sale_date := sale.date, sale_amount := sale.btc_amount,
          sale_price_per_btc := sale.sale_price_per_btc, lot_date := lot.date,
          lot_amount_used := amount_to_use,
          lot_cost_basis_per_btc := lot.price_per_btc,
          cost_basis_used := cost_basis_used, gain_loss := gain_loss,
          holding_period_days := hp.1, is_long_term := hp.2,
          sale_source := sale.source, lot_source := lot.source }
      match allocateSaleChecked sale (remaining_sale_amount - amount_to_use) rest with
      | none => none
      | some r =>
        some ((lot, remaining_amount - amount_to_use) :: r.1,
          matched :: r.2.1, r.2.2)

/-- Division-guarded variant of the outer sale loop. -/
def processSalesChecked : List (AcquisitionLot × ℚ) →
    List SaleTransaction →
      Option (List (AcquisitionLot × ℚ) × List MatchedLot)
  | rl, [] => some (rl, [])
  | rl, s :: ss =>
    match allocateSaleChecked s s.btc_amount rl with
    | none => none
    | some r =>
      match processSalesChecked r.1 ss with
      | none => none
      | some st => some (st.1, r.2.1 ++ st.2)

/-- Division-guarded FIFO entry point. -/
def match_sales_to_lots_fifo_checked (acquisition_lots : List AcquisitionLot)
    (sales : List SaleTransaction) : Option MatchingResults :=
  match processSalesChecked
      ((fifoSorted acquisition_lots).map (fun lot => (lot, lot.btc_amount)))
      sales with
  | none => none
  | some st => some (totalsFrom "FIFO" st.2)

/-- Division-guarded LIFO entry point. -/
def match_sales_to_lots_lifo_checked (acquisition_lots : List AcquisitionLot)
    (sales : List SaleTransaction) : Option MatchingResults :=
  match processSalesChecked
      ((lifoSorted acquisition_lots).map (fun lot => (lot, lot.btc_amount)))
      sales with
  | none => none
  | some st => some (totalsFrom "LIFO" st.2)

/-- Division-guarded HIFO entry point. -/
def match_sales_to_lots_hifo_checked (acquisition_lots : List AcquisitionLot)
    (sales : List SaleTransaction) : Option MatchingResults :=
  match processSalesChecked
      ((hifoSorted acquisition_lots).map (fun lot => (lot, lot.btc_amount)))
      sales with
  | none => none
  | some st => some (totalsFrom "HIFO" st.2)

theorem forall₂_btcBound {rl rl' : List (AcquisitionLot × ℚ)}
    (h : List.Forall₂
      (fun p p' => p'.1 = p.1 ∧ p'.2 ≤ p.2 ∧ (0 ≤ p.2 → 0 ≤ p'.2)) rl rl')
    (hb : ∀ p ∈ rl, p.2 ≤ p.1.btc_amount) :
    ∀ p ∈ rl', p.2 ≤ p.1.btc_amount := by
  induction h with
  | nil => intro p hp; simp at hp
  | @cons a b l₁ l₂ hab htail ih =>
    intro p hp
    rcases List.mem_cons.mp hp with hp | hp
    · subst hp
      have := hb a (List.mem_cons_self a l₁)
      rw [hab.1]
      linarith [hab.2.1]
    · exact ih (fun t ht => hb t (List.mem_cons_of_mem a ht)) p hp

/-- Under the counters-bounded-by-quantity invariant, the guarded walk never
hits the zero-divisor check: it agrees with the actual walk. -/
theorem allocateSaleChecked_eq (sale : SaleTransaction) (q : ℚ)
    (rl : List (AcquisitionLot × ℚ))
    (h : ∀ p ∈ rl, p.2 ≤ p.1.btc_amount) :
    allocateSaleChecked sale q rl = some (allocateSale sale q rl) := by
  induction rl generalizing q with
  | nil => simp [allocateSale, allocateSaleChecked]
  | cons p rest ih =>
    obtain ⟨lot, ra⟩ := p
    have hrest : ∀ p ∈ rest, p.2 ≤ p.1.btc_amount :=
      fun p hp => h p (List.mem_cons_of_mem _ hp)
    have hhead : ra ≤ lot.btc_amount := h (lot, ra) (List.mem_cons_self _ _)
    simp only [allocateSale, allocateSaleChecked]
    split_ifs with h1 h2 h3 h4
    · rfl
    · rw [ih q hrest]
    · rw [ih q hrest]
    · exact absurd (h4 ▸ hhead) h2
    · rw [ih (q - min q ra) hrest]

/-- The guarded sale loop agrees with the actual sale loop whenever every
counter starts bounded by its lot's quantity. -/
theorem processSalesChecked_eq (sales : List SaleTransaction)
    (rl : List (AcquisitionLot × ℚ))
    (h : ∀ p ∈ rl, p.2 ≤ p.1.btc_amount) :
    processSalesChecked rl sales = some (processSales sales rl) := by
  induction sales generalizing rl with
  | nil => simp [processSales, processSalesChecked]
  | cons s ss ih =>
    rw [processSales_cons]
    simp only [processSalesChecked]
    rw [allocateSaleChecked_eq s s.btc_amount rl h]
    have h' : ∀ p ∈ (allocateSale s s.btc_amount rl).1,
        p.2 ≤ p.1.btc_amount :=
      forall₂_btcBound (allocateSale_forall₂ s s.btc_amount rl) h
    dsimp only
    rw [ih _ h']

/-- Claim C10: the division by lot.btc_amount in the engine's cost-basis
computation is never a division by zero, for every input and policy, even
without assuming the positive-quantity input invariant: the guarded engines
never return none and agree with the actual engines. -/
theorem claim_c10_division_safety (acquisition_lots : List AcquisitionLot)
    (sales : List SaleTransaction) :
    match_sales_to_lots_fifo_checked acquisition_lots sales =
      some (match_sales_to_lots_fifo acquisition_lots sales) ∧
    match_sales_to_lots_lifo_checked acquisition_lots sales =
      some (match_sales_to_lots_lifo acquisition_lots sales) ∧
    match_sales_to_lots_hifo_checked acquisition_lots sales =
      some (match_sales_to_lots_hifo acquisition_lots sales) := by
  have hb : ∀ (sorted_lots : List AcquisitionLot),
      ∀ p ∈ sorted_lots.map (fun lot => (lot, lot.btc_amount)),
        p.2 ≤ p.1.btc_amount := by
    intro sorted_lots p hp
    simp only [List.mem_map] at hp
    obtain ⟨lot, _, rfl⟩ := hp
    exact le_refl _
  refine ⟨?_, ?_, ?_⟩
  · simp only [match_sales_to_lots_fifo_checked, match_sales_to_lots_fifo,
      buildResults]
    rw [processSalesChecked_eq sales _ (hb _)]
  · simp only [match_sales_to_lots_lifo_checked, match_sales_to_lots_lifo,
      buildResults]
    rw [processSalesChecked_eq sales _ (hb _)]
  · simp only [match_sales_to_lots_hifo_checked, match_sales_to_lots_hifo,
      buildResults]
    rw [processSalesChecked_eq sales _ (hb _)]

/-! The parameterized engine (claim C6). -/

/-- Policy selector of the spec's parameterized engine. -/
inductive Policy where
  | FIFO
  | LIFO
  | HIFO
deriving DecidableEq

/-- Lot comparator of each policy, written from the spec (section 4.1 step
1): FIFO ascending by date, LIFO descending by date, HIFO descending by
cost basis per unit, all as stable sorts. -/
def Policy.cmp : Policy → AcquisitionLot → AcquisitionLot → Prop
  | .FIFO => fun a b => a.date ≤ b.date
  | .LIFO => fun a b => b.date ≤ a.date
  | .HIFO => fun a b => b.price_per_btc ≤ a.price_per_btc

instance Policy.cmp.decidable : (p : Policy) → DecidableRel p.cmp
  | .FIFO => fun a b => inferInstanceAs (Decidable (a.date ≤ b.date))
  | .LIFO => fun a b => inferInstanceAs (Decidable (b.date ≤ a.date))
  | .HIFO => fun a b => inferInstanceAs (Decidable (b.price_per_btc ≤ a.price_per_btc))

/-- Name of each policy, as stored in MatchingResults.method. -/
def Policy.methodName : Policy → String
  | .FIFO => "FIFO"
  | .LIFO => "LIFO"
  | .HIFO => "HIFO"

/-- Modelled from the spec (sections 4.1 and 9): the single shared
allocation algorithm parameterized by a lot-comparator; the engine sorts the
lots once with the policy's comparator and runs the shared loop. -/
def match_sales_to_lots (policy : Policy)
    (acquisition_lots : List AcquisitionLot)
    (sales : List SaleTransaction) : MatchingResults :=
  buildResults policy.methodName
    (acquisition_lots.insertionSort policy.cmp) sales

/-- Claim C6: the three matching entry points are the same algorithm
differing only in the lot ordering: each equals the single parameterized
engine instantiated with its policy. -/
theorem claim_c6_single_engine (acquisition_lots : List AcquisitionLot)
    (sales : List SaleTransaction) :
    match_sales_to_lots_fifo acquisition_lots sales =
      match_sales_to_lots Policy.FIFO acquisition_lots sales ∧
    match_sales_to_lots_lifo acquisition_lots sales =
      match_sales_to_lots Policy.LIFO acquisition_lots sales ∧
    match_sales_to_lots_hifo acquisition_lots sales =
      match_sales_to_lots Policy.HIFO acquisition_lots sales :=
  ⟨rfl, rfl, rfl⟩

/-! Optimal-policy selection (claim C9). -/

/-- Embeds the Method and Total Realized Gain columns of compare_methods
(cost_basis_matching.py lines 333-362), in row order FIFO, LIFO, HIFO. -/
def compare_methods_gain_table (fifo_results lifo_results
    hifo_results : MatchingResults) : List (String × ℚ) :=
  [("FIFO", fifo_results.total_realized_gain),
   ("LIFO", lifo_results.total_realized_gain),
   ("HIFO", hifo_results.total_realized_gain)]

/-- Embeds the idxmin scan used at btc_tax.py line 115: the first row whose
gain achieves the minimum (pandas idxmin keeps the first occurrence). -/
def minGainRow : String × ℚ → List (String × ℚ) → String × ℚ
  | best, [] => best
  | best, row :: rest =>
    if row.2 < best.2 then minGainRow row rest else minGainRow best rest

/-- Embeds the OPTIMAL method selection (btc_tax.py lines 114-116): the
Method cell of the first row with minimal Total Realized Gain. -/
def select_optimal (fifo_results lifo_results
    hifo_results : MatchingResults) : String :=
  match compare_methods_gain_table fifo_results lifo_results hifo_results with
  | [] => ""
  | row :: rest => (minGainRow row rest).1

/-- Claim C9: the selected policy is the one with the minimum total realized
gain, and ties go to the first-listed policy in FIFO, LIFO, HIFO order. -/
theorem claim_c9_optimal_selection (f l h : MatchingResults) :
    (select_optimal f l h = "FIFO" ↔
      f.total_realized_gain ≤ l.total_realized_gain ∧
        f.total_realized_gain ≤ h.total_realized_gain) ∧
    (select_optimal f l h = "LIFO" ↔
      l.total_realized_gain < f.total_realized_gain ∧
        l.total_realized_gain ≤ h.total_realized_gain) ∧
    (select_optimal f l h = "HIFO" ↔
      h.total_realized_gain < f.total_realized_gain ∧
        h.total_realized_gain < l.total_realized_gain) := by
  simp only [select_optimal, compare_methods_gain_table, minGainRow]
  split_ifs with h1 h2 h3 <;> dsimp only
  · exact ⟨iff_of_false (by decide) (by rintro ⟨ha, _⟩; linarith),
      iff_of_false (by decide) (by rintro ⟨_, hb⟩; linarith),
      iff_of_true rfl ⟨by linarith, h2⟩⟩
  · exact ⟨iff_of_false (by decide) (by rintro ⟨ha, _⟩; linarith),
      iff_of_true rfl ⟨h1, by linarith⟩,
      iff_of_false (by decide) (by rintro ⟨_, hb⟩; linarith)⟩
  · exact ⟨iff_of_false (by decide) (by rintro ⟨_, hb⟩; linarith),
      iff_of_false (by decide) (by rintro ⟨ha, _⟩; linarith),
      iff_of_true rfl ⟨h3, by linarith⟩⟩
  · exact ⟨iff_of_true rfl ⟨by linarith, by linarith⟩,
      iff_of_false (by decide) (by rintro ⟨ha, _⟩; linarith),
      iff_of_false (by decide) (by rintro ⟨hb, _⟩; linarith)⟩

/-! Legacy-lot synthesis (claim C8). -/

/-- Embeds the legacy-lot synthesis step of build_acquisition_lots
(acquisition_lots.py lines 219-240): the known lots are summed, the legacy
quantity is the stated current balance minus that total, and exactly one
zero-cost-basis LEGACY lot dated at the fallback date is appended when the
legacy quantity exceeds the 1e-8 threshold. -/
def synthesize_legacy (all_lots : List AcquisitionLot)
    (current_balance_btc : ℚ) (legacy_acquisition_date : ℤ) :
    List AcquisitionLot :=
  let total_known_btc := (all_lots.map AcquisitionLot.btc_amount).sum
  let legacy_btc := current_balance_btc - total_known_btc
  if 1/100000000 < legacy_btc then
    all_lots ++
      [AcquisitionLot.make legacy_acquisition_date legacy_btc 0 "LEGACY"]
  else all_lots

/-- Embeds build_acquisition_lots lines 219-243 given the already-parsed buy
and mining lots (CSV parsing and price lookup are upstream I/O): legacy
synthesis followed by the final stable sort by date. -/
def build_acquisition_lots (all_lots : List AcquisitionLot)
    (current_balance_btc : ℚ) (legacy_acquisition_date : ℤ) :
    List AcquisitionLot :=
  (synthesize_legacy all_lots current_balance_btc
    legacy_acquisition_date).insertionSort (fun a b => a.date ≤ b.date)

/-- Claim C8: legacy synthesis appends exactly one LEGACY lot with quantity
current_balance minus known total, zero cost basis and zero per-unit basis,
dated at the fallback date, exactly when that difference exceeds the 1e-8
tolerance, and appends nothing otherwise. -/
theorem claim_c8_legacy_synthesis (all_lots : List AcquisitionLot)
    (current_balance_btc : ℚ) (legacy_acquisition_date : ℤ) :
    (1/100000000 <
        current_balance_btc - (all_lots.map AcquisitionLot.btc_amount).sum →
      synthesize_legacy all_lots current_balance_btc legacy_acquisition_date =
        all_lots ++
          [AcquisitionLot.make legacy_acquisition_date
            (current_balance_btc -
              (all_lots.map AcquisitionLot.btc_amount).sum) 0 "LEGACY"] ∧
      (AcquisitionLot.make legacy_acquisition_date
        (current_balance_btc -
          (all_lots.map AcquisitionLot.btc_amount).sum) 0
        "LEGACY").cost_basis_usd = 0 ∧
      (AcquisitionLot.make legacy_acquisition_date
        (current_balance_btc -
          (all_lots.map AcquisitionLot.btc_amount).sum) 0
        "LEGACY").price_per_btc = 0 ∧
      (AcquisitionLot.make legacy_acquisition_date
        (current_balance_btc -
          (all_lots.map AcquisitionLot.btc_amount).sum) 0
        "LEGACY").source = "LEGACY" ∧
      (AcquisitionLot.make legacy_acquisition_date
        (current_balance_btc -
          (all_lots.map AcquisitionLot.btc_amount).sum) 0
        "LEGACY").date = legacy_acquisition_date) ∧
    (¬ 1/100000000 <
        current_balance_btc - (all_lots.map AcquisitionLot.btc_amount).sum →
      synthesize_legacy all_lots current_balance_btc legacy_acquisition_date =
        all_lots) := by
  constructor
  · intro hpos
    refine ⟨?_, rfl, ?_, rfl, rfl⟩
    · simp only [synthesize_legacy]
      rw [if_pos hpos]
    · simp only [AcquisitionLot.make]
      split_ifs <;> simp
  · intro hneg
    simp only [synthesize_legacy]
    rw [if_neg hneg]

/-- Witness for claim C8: a balance of 2.0 against known lots totalling 1.5
yields one LEGACY lot of 0.5 with zero cost basis; known lots totalling 2.0
yield no legacy lot. -/
theorem claim_c8_legacy_synthesis_witness :
    synthesize_legacy [AcquisitionLot.make 0 (3/2) 15000 "BUY"] 2 5 =
      [AcquisitionLot.make 0 (3/2) 15000 "BUY",
        AcquisitionLot.make 5 (1/2) 0 "LEGACY"] ∧
    synthesize_legacy [AcquisitionLot.make 0 2 20000 "BUY"] 2 5 =
      [AcquisitionLot.make 0 2 20000 "BUY"] := by
  constructor
  · have h := (claim_c8_legacy_synthesis
      [AcquisitionLot.make 0 (3/2) 15000 "BUY"] 2 5).1
      (by norm_num [AcquisitionLot.make])
    rw [h.1]
    norm_num [AcquisitionLot.make]
  · exact (claim_c8_legacy_synthesis
      [AcquisitionLot.make 0 2 20000 "BUY"] 2 5).2
      (by norm_num [AcquisitionLot.make])

/-! Tolerance versus exact zero checks (claim C7). -/

/-- Embeds the per-lot usage accumulation of calculate_remaining_lots
(cost_basis_matching.py lines 412-419): the total allocated quantity booked
against the (date, source) key of a lot. -/
def lotUsage (matched_lots : List MatchedLot) (d : ℤ) (src : String) : ℚ :=
  ((matched_lots.filter
    (fun m => decide (m.lot_date = d ∧ m.lot_source = src))).map
      MatchedLot.lot_amount_used).sum

/-- Embeds calculate_remaining_lots (cost_basis_matching.py lines 398-430):
pairs each lot with its unconsumed quantity and keeps those above the 1e-8
threshold of line 427. -/
def calculate_remaining_lots (acquisition_lots : List AcquisitionLot)
    (matched_lots : List MatchedLot) : List (AcquisitionLot × ℚ) :=
  (acquisition_lots.map (fun lot =>
    (lot, lot.btc_amount - lotUsage matched_lots lot.date lot.source))).filter
    (fun p => decide ((1 : ℚ)/100000000 < p.2))

/-- Engine walk written from the words of claim C7, for comparison with the
source behavior: the same allocation loop with every remaining-quantity
zero-check replaced by the 1e-8 tolerance. -/
def allocateSaleTol (sale : SaleTransaction) (remaining_sale_amount : ℚ) :
    List (AcquisitionLot × ℚ) →
      List (AcquisitionLot × ℚ) × List MatchedLot × ℚ
  | [] => ([], [], remaining_sale_amount)
  | (lot, remaining_amount) :: rest =>
    if remaining_sale_amount ≤ 1/100000000 then
      ((lot, remaining_amount) :: rest, [], remaining_sale_amount)
    else if remaining_amount ≤ 1/100000000 then
      let r := allocateSaleTol sale remaining_sale_amount rest
      ((lot, remaining_amount) :: r.1, r.2.1, r.2.2)
    else if sale.date < lot.date then
      let r := allocateSaleTol sale remaining_sale_amount rest
      ((lot, remaining_amount) :: r.1, r.2.1, r.2.2)
    else
      let amount_to_use := min remaining_sale_amount remaining_amount
      let cost_basis_used := (amount_to_use / lot.btc_amount) * lot.cost_basis_usd
      let gain_loss := (sale.sale_price_per_btc - lot.price_per_btc) * amount_to_use
      let hp := calculate_holding_period lot.date sale.date
      let matched : MatchedLot :=
        { sale_date := sale.date, sale_amount := sale.btc_amount,
          sale_price_per_btc := sale.sale_price_per_btc, lot_date := lot.date,
          lot_amount_used := amount_to_use,
          lot_cost_basis_per_btc := lot.price_per_btc,
          cost_basis_used := cost_basis_used, gain_loss := gain_loss,
          holding_period_days := hp.1, is_long_term := hp.2,
          sale_source := sale.source, lot_source := lot.source }
      let r := allocateSaleTol sale (remaining_sale_amount - amount_to_use) rest
      ((lot, remaining_amount - amount_to_use) :: r.1, matched :: r.2.1, r.2.2)

/-- Sale loop of the tolerance-check engine variant. -/
def processSalesTol : List (AcquisitionLot × ℚ) → List SaleTransaction →
    List (AcquisitionLot × ℚ) × List MatchedLot
  | rl, [] => (rl, [])
  | rl, s :: ss =>
    let r := allocateSaleTol s s.btc_amount rl
    let st := processSalesTol r.1 ss
    (st.1, r.2.1 ++ st.2)

/-- FIFO entry point of the tolerance-check engine variant. -/
def match_sales_to_lots_fifo_tol (acquisition_lots : List AcquisitionLot)
    (sales : List SaleTransaction) : MatchingResults :=
  totalsFrom "FIFO"
    (processSalesTol
      ((fifoSorted acquisition_lots).map (fun lot => (lot, lot.btc_amount)))
      sales).2

/-- Counterexample for claim C7: on a lot and sale of 5e-9 BTC, which is
positive but below the 1e-8 tolerance, the actual engine emits a match while
the tolerance-check engine emits none, so the allocation loop's checks are
exact comparisons with zero, not 1e-8 tolerance checks. -/
theorem claim_c7_counterexample :
    (match_sales_to_lots_fifo [AcquisitionLot.make 0 (1/200000000) 1 "BUY"]
      [SaleTransaction.make 10 (1/200000000) 20000 1 0
        "RIVER_SELL"]).matched_lots.length = 1 ∧
    (match_sales_to_lots_fifo_tol [AcquisitionLot.make 0 (1/200000000) 1 "BUY"]
      [SaleTransaction.make 10 (1/200000000) 20000 1 0
        "RIVER_SELL"]).matched_lots.length = 0 ∧
    match_sales_to_lots_fifo [AcquisitionLot.make 0 (1/200000000) 1 "BUY"]
      [SaleTransaction.make 10 (1/200000000) 20000 1 0 "RIVER_SELL"] ≠
    match_sales_to_lots_fifo_tol [AcquisitionLot.make 0 (1/200000000) 1 "BUY"]
      [SaleTransaction.make 10 (1/200000000) 20000 1 0 "RIVER_SELL"] := by
  have h1 : (match_sales_to_lots_fifo
      [AcquisitionLot.make 0 (1/200000000) 1 "BUY"]
      [SaleTransaction.make 10 (1/200000000) 20000 1 0
        "RIVER_SELL"]).matched_lots.length = 1 := by
    norm_num [match_sales_to_lots_fifo, buildResults, fifoSorted, processSales,
      saleStep, totalsFrom, allocateSale, calculate_holding_period,
      AcquisitionLot.make, SaleTransaction.make, List.insertionSort,
      List.orderedInsert]
  have h2 : (match_sales_to_lots_fifo_tol
      [AcquisitionLot.make 0 (1/200000000) 1 "BUY"]
      [SaleTransaction.make 10 (1/200000000) 20000 1 0
        "RIVER_SELL"]).matched_lots.length = 0 := by
    norm_num [match_sales_to_lots_fifo_tol, fifoSorted, processSalesTol,
      totalsFrom, allocateSaleTol, AcquisitionLot.make, SaleTransaction.make,
      List.insertionSort, List.orderedInsert]
  refine ⟨h1, h2, fun heq => ?_⟩
  rw [heq, h2] at h1
  exact absurd h1 (by norm_num)

/-- Amended claim C7: the remaining-lots calculation and the legacy-balance
check use the 1e-8 tolerance, but the matching engine's allocation loop
compares remaining quantities to zero exactly, allocating from any lot with
positive remaining quantity however small. -/
theorem claim_c7_amended_tolerances :
    (∀ (sale : SaleTransaction) (q ra : ℚ) (lot : AcquisitionLot)
      (rest : List (AcquisitionLot × ℚ)),
      0 < q → 0 < ra → lot.date ≤ sale.date →
      ∃ m ms, (allocateSale sale q ((lot, ra) :: rest)).2.1 = m :: ms ∧
        m.lot_amount_used = min q ra) ∧
    (∀ (acquisition_lots : List AcquisitionLot)
      (matched_lots : List MatchedLot) (p : AcquisitionLot × ℚ),
      p ∈ calculate_remaining_lots acquisition_lots matched_lots ↔
        (p.1 ∈ acquisition_lots ∧
          p.2 = p.1.btc_amount - lotUsage matched_lots p.1.date p.1.source ∧
          (1 : ℚ)/100000000 < p.2)) ∧
    (∀ (all_lots : List AcquisitionLot) (bal : ℚ) (d : ℤ),
      (synthesize_legacy all_lots bal d).length = all_lots.length + 1 ↔
        1/100000000 < bal - (all_lots.map AcquisitionLot.btc_amount).sum) := by
  refine ⟨?_, ?_, ?_⟩
  · intro sale q ra lot rest hq hra hdate
    have h1 : ¬ q ≤ 0 := not_le.mpr hq
    have h2 : ¬ ra ≤ 0 := not_le.mpr hra
    have h3 : ¬ sale.date < lot.date := not_lt.mpr hdate
    simp only [allocateSale, if_neg h1, if_neg h2, if_neg h3]
    exact ⟨_, _, rfl, rfl⟩
  · intro acquisition_lots matched_lots p
    simp only [calculate_remaining_lots, List.mem_filter, List.mem_map,
      decide_eq_true_eq]
    constructor
    · rintro ⟨⟨lot, hlot, rfl⟩, hthr⟩
      exact ⟨hlot, rfl, hthr⟩
    · rintro ⟨hmem, hval, hthr⟩
      exact ⟨⟨p.1, hmem, Prod.ext rfl hval.symm⟩, hthr⟩
  · intro all_lots bal d
    simp only [synthesize_legacy]
    split_ifs with hc
    · exact iff_of_true (by simp) hc
    · exact iff_of_false (by omega) hc

/-- Witness for the amended claim C7: the allocation loop emits a match from
a lot with positive remaining quantity. -/
theorem claim_c7_amended_tolerances_witness :
    ∃ m ms,
      (allocateSale (SaleTransaction.make 10 1 20000 20000 0 "RIVER_SELL") 1
        [(AcquisitionLot.make 0 1 10000 "BUY", 1)]).2.1 = m :: ms ∧
      m.lot_amount_used = min 1 1 :=
  claim_c7_amended_tolerances.1
    (SaleTransaction.make 10 1 20000 20000 0 "RIVER_SELL") 1 1
    (AcquisitionLot.make 0 1 10000 "BUY") []
    (by norm_num) (by norm_num)
    (by norm_num [AcquisitionLot.make, SaleTransaction.make])
